import Mathlib

/-!
Verification of the sorted, self-merging interval list of
`src/lib/dsm-prefetch/src/list.c` (popcorn-compiler).

The doubly-linked chain of nodes is embedded as a `List memory_span_t`
holding the spans in head-to-tail order; `l->size` is the list length.
Pointer splicing becomes list surgery around the position found by
`list_seek`, i.e. around the split of the list into the prefix of spans
with `low < mem.low` (`takeWhile`) and the rest (`dropWhile`).  Addresses
(`uint64_t` in the C code) are modelled as `Nat`: the code only copies,
compares and takes `MIN`/`MAX` of bounds, never performs arithmetic on
them, so no overflow behaviour is lost.
-/

/-- A half-open memory span `[low, high)` (`memory_span_t`, declared in the
repository's `list.h`, which is not under `src/`; modelled from the spec:
"Memory span: `{low, high}`, a half-open byte range `[low, high)`"). -/
structure memory_span_t where
  low : Nat
  high : Nat
deriving DecidableEq, Repr

/-- `list_check_merge` (list.c:130-136): spans `a`, `b` — with `a` before
`b` in sorted order — are adjacent or overlapping and should be merged. -/
def list_check_merge (a b : memory_span_t) : Bool :=
  a.low == b.low || decide (a.high ≥ b.low)

/-- `list_check_overlap` (list.c:151-157): spans `a`, `b` — with `a` before
`b` in sorted order — overlap; spans that merely touch (`a.high = b.low`)
do not overlap because the upper bound is exclusive. -/
def list_check_overlap (a b : memory_span_t) : Bool :=
  a.low == b.low || decide (a.high > b.low)

/-- `list_check_contained` (list.c:170-176): span `a` entirely contains
span `b` (with `a` before `b` in sorted order). -/
def list_check_contained (a b : memory_span_t) : Bool :=
  decide (a.low ≤ b.low) && decide (a.high ≥ b.high)

/-- `list_seek` (list.c:197-207): walk from the head past every node whose
`low` is below `mem.low` and return the first remaining node (the would-be
successor of `mem`), or `none` when the walk falls off the tail (also when
the list is empty). -/
def list_seek (l : List memory_span_t) (mem : memory_span_t) : Option memory_span_t :=
  (l.dropWhile fun s => decide (s.low < mem.low)).head?

/-- The successor-merge loop of `list_insert` (list.c:367-373): starting
from the freshly spliced (and possibly predecessor-merged) node `n`,
repeatedly fold the next node into `n` while `list_check_merge` approves.
Each fold is `list_merge` (list.c:218-236): the earlier node keeps its
`low` and takes `MAX` of the two `high`s, the later node is unlinked. -/
def merge_succs (n : memory_span_t) : List memory_span_t → List memory_span_t
  | [] => [n]
  | next :: rest =>
    if list_check_merge n next then
      merge_succs ⟨n.low, max n.high next.high⟩ rest
    else n :: next :: rest

/-- `list_insert` (list.c:312-376).  An empty list gets the span as sole
node.  Otherwise the new node is spliced at the `list_seek` position —
after the prefix of nodes with `low < mem.low` — then merged at most once
with its predecessor (list.c:362-365) and repeatedly with its successors
(list.c:367-373). -/
def list_insert (l : List memory_span_t) (mem : memory_span_t) : List memory_span_t :=
  match l with
  | [] => [mem]
  | _ :: _ =>
    let before := l.takeWhile fun s => decide (s.low < mem.low)
    let after := l.dropWhile fun s => decide (s.low < mem.low)
    match before.getLast? with
    | some p =>
      if list_check_merge p mem then
        before.dropLast ++ merge_succs ⟨p.low, max p.high mem.high⟩ after
      else
        before ++ merge_succs mem after
    | none => merge_succs mem after

/-- The successor walk of `list_remove` (list.c:451-461): while the current
node overlaps `mem`, delete it when it is fully contained in `mem`
(`list_delete`, list.c:245-282), otherwise raise its `low` to `mem.high`.
After such a raise the loop's re-test `list_check_overlap(mem, cur)` is
`mem.low == mem.high || mem.high > mem.high`, which is false because
`mem.low < mem.high` is asserted on entry to `list_remove`, so the raise
ends the walk. -/
def trim_succs (mem : memory_span_t) : List memory_span_t → List memory_span_t
  | [] => []
  | c :: rest =>
    if list_check_overlap mem c then
      if list_check_contained mem c then trim_succs mem rest
      else ⟨mem.high, c.high⟩ :: rest
    else c :: rest

/-- `list_remove` (list.c:399-464).  On a non-empty list, `prev` is the
node before the `list_seek` position (`cur->prev`, or `l->tail` when seek
returned null) — in both cases the last node of the `takeWhile` prefix.
If `prev` overlaps `mem` its tail end is clipped to `mem.low`, unless
`mem` is strictly interior to `prev`, in which case `prev` is deleted and
the two remainders are re-inserted through `list_insert` (list.c:434-443).
The successor walk (list.c:451-461) then starts at the original seek
position; on every pointer-safe execution the two re-inserted spans splice
and merge strictly before that node (otherwise `list_insert` would have
freed the walk's entry node and the walk would start at a dangling
pointer), so the walk commutes with the two inserts and is applied to the
successor suffix first here. -/
def list_remove (l : List memory_span_t) (mem : memory_span_t) : List memory_span_t :=
  match l with
  | [] => []
  | _ :: _ =>
    let before := l.takeWhile fun s => decide (s.low < mem.low)
    let after := l.dropWhile fun s => decide (s.low < mem.low)
    let walked := trim_succs mem after
    match before.getLast? with
    | some p =>
      if list_check_overlap p mem then
        if decide (p.high ≤ mem.high) then
          before.dropLast ++ ⟨p.low, mem.low⟩ :: walked
        else
          list_insert (list_insert (before.dropLast ++ walked) ⟨p.low, mem.low⟩)
            ⟨mem.high, p.high⟩
      else before ++ walked
    | none => walked

/-- `list_overlaps` (list.c:378-397), with its possible fault made
explicit.  When `list_seek` returns a node, the code reads
`next->prev->mem` (list.c:391) without checking `next->prev` for null;
when the seek result is the head node that predecessor is null, so the
read faults (in an assert-enabled build the `assert(a && b && ...)` inside
`list_check_overlap` fires first).  `none` models that fault; `some b`
models a normal return of `b`. -/
def list_overlaps (l : List memory_span_t) (mem : memory_span_t) : Option Bool :=
  match l with
  | [] => some false
  | _ :: _ =>
    let before := l.takeWhile fun s => decide (s.low < mem.low)
    let after := l.dropWhile fun s => decide (s.low < mem.low)
    match after.head? with
    | none => (l.getLast?).map fun t => list_check_overlap t mem
    | some next =>
      match before.getLast? with
      | none => none
      | some p => some (list_check_overlap p mem || list_check_overlap mem next)

/-- The list invariant (spec §3/§8): spans are strictly ascending by `low`,
pairwise non-overlapping and pairwise non-adjacent — i.e. for any two
stored spans in list order the earlier one ends strictly below where the
later one begins — and every stored span is well formed (`low < high`). -/
def ListInv (l : List memory_span_t) : Prop :=
  l.Pairwise (fun a b => a.high < b.low) ∧ ∀ s ∈ l, s.low < s.high

instance (l : List memory_span_t) : Decidable (ListInv l) := by
  unfold ListInv; infer_instance

/-- A public mutation of the list: `list_insert` or `list_remove`. -/
inductive list_op where
  | insert (mem : memory_span_t)
  | remove (mem : memory_span_t)

/-- Run one mutation on the current list state. -/
def apply_op (l : List memory_span_t) : list_op → List memory_span_t
  | .insert mem => list_insert l mem
  | .remove mem => list_remove l mem

/-- Run a sequence of mutations starting from a freshly initialized empty
list (`list_init`, list.c:286-304, zeroes `head`/`tail`/`size`). -/
def apply_ops (ops : List list_op) : List memory_span_t :=
  ops.foldl apply_op []

/-- The argument-validity precondition asserted by both mutations
(list.c:317, list.c:405): the span has positive length. -/
def op_valid : list_op → Prop
  | .insert mem => mem.low < mem.high
  | .remove mem => mem.low < mem.high

/-- The spec's stored-overlap formula (spec §8): some stored span `s` has
`s.low == mem.low || (s.low < mem.high && mem.low < s.high)`. -/
def spec_overlaps (l : List memory_span_t) (mem : memory_span_t) : Bool :=
  l.any fun s => s.low == mem.low || (decide (s.low < mem.high) && decide (mem.low < s.high))

/-- A stored span touches or overlaps `mem` (adjacency included): the two
half-open ranges have `max` of lows ≤ `min` of highs. -/
def touches (s mem : memory_span_t) : Bool :=
  decide (s.low ≤ mem.high) && decide (mem.low ≤ s.high)

/-- What `list_remove` leaves of one stored span `s`: kept untouched when
disjoint from the removed range `[mem.low, mem.high)` (touching is
disjoint), clipped at the boundary it straddles, deleted when fully
covered. -/
def remove_piece (mem s : memory_span_t) : Option memory_span_t :=
  if s.high ≤ mem.low then some s
  else if mem.high ≤ s.low then some s
  else if s.low < mem.low then some ⟨s.low, mem.low⟩
  else if mem.high < s.high then some ⟨mem.high, s.high⟩
  else none

/-!  The node pool (`node_cache_t`, list.c:28-47, and `node_create`,
list.c:50-82).  A pool holds `NODE_CACHE_SIZE` node slots plus a parallel
used-flag array (`NODE_CACHE_SIZE` comes from `definitions.h`, not under
`src/`; the pool is modelled with its two parallel arrays as lists, the
capacity being their length).  Links are slot references, `none` standing
for the C null pointer. -/

/-- A linked-list node (`node_t`, list.c:22-26). -/
structure node_t where
  prev : Option Nat
  next : Option Nat
  mem : memory_span_t
deriving DecidableEq, Repr

/-- A per-list node pool (`node_cache_t`, list.c:29-34). -/
structure node_cache_t where
  node : List node_t
  node_used : List Bool
deriving DecidableEq, Repr

/-- Result of `node_create`: a handle into pool storage (slot index) or a
heap-allocated node (the `popcorn_malloc` fallback, list.c:75-81). -/
inductive alloc_result where
  | pool (idx : Nat)
  | heap (n : node_t)
deriving DecidableEq, Repr

/-- The free-slot scan of `node_create` (list.c:63-73): walk the used
flags in index order and return the first free index. -/
def scan_free : List Bool → Option Nat
  | [] => none
  | u :: rest => if u then (scan_free rest).map (· + 1) else some 0

/-- `node_create` (list.c:50-82): take the first free pool slot, mark it
used and initialize it with the given span and null links (the `prev`/
`next` clearing is the `_CHECKS` build's initialization, list.c:68-70);
when no slot is free, fall back to a heap node (list.c:75-81). -/
def node_create (cache : node_cache_t) (mem : memory_span_t) :
    alloc_result × node_cache_t :=
  match scan_free cache.node_used with
  | some i =>
    (alloc_result.pool i,
     node_cache_t.mk (cache.node.set i (node_t.mk none none mem))
       (cache.node_used.set i true))
  | none => (alloc_result.heap (node_t.mk none none mem), cache)

/-! ### Characterizations of the span predicates -/

theorem check_merge_iff {a b : memory_span_t} :
    list_check_merge a b = true ↔ a.low = b.low ∨ b.low ≤ a.high := by
  simp [list_check_merge]

theorem check_merge_eq_false {a b : memory_span_t} :
    list_check_merge a b = false ↔ ¬a.low = b.low ∧ a.high < b.low := by
  simp [list_check_merge]

theorem check_overlap_iff {a b : memory_span_t} :
    list_check_overlap a b = true ↔ a.low = b.low ∨ b.low < a.high := by
  simp [list_check_overlap]

theorem check_overlap_eq_false {a b : memory_span_t} :
    list_check_overlap a b = false ↔ ¬a.low = b.low ∧ a.high ≤ b.low := by
  simp [list_check_overlap]

theorem check_contained_iff {a b : memory_span_t} :
    list_check_contained a b = true ↔ a.low ≤ b.low ∧ b.high ≤ a.high := by
  simp [list_check_contained]

/-! ### Splitting a list at the seek position -/

theorem takeWhile_append_eq {α : Type} (p : α → Bool) (A B : List α)
    (hA : ∀ x ∈ A, p x = true) (hB : ∀ x ∈ B.head?, p x = false) :
    (A ++ B).takeWhile p = A := by
  induction A with
  | nil =>
    cases B with
    | nil => rfl
    | cons b t => simpa [List.takeWhile_cons] using hB b rfl
  | cons a A ih =>
    have ha := hA a (by simp)
    simp only [List.cons_append, List.takeWhile_cons, ha, if_true]
    rw [ih (fun x hx => hA x (by simp [hx]))]

theorem dropWhile_append_eq {α : Type} (p : α → Bool) (A B : List α)
    (hA : ∀ x ∈ A, p x = true) (hB : ∀ x ∈ B.head?, p x = false) :
    (A ++ B).dropWhile p = B := by
  induction A with
  | nil =>
    cases B with
    | nil => rfl
    | cons b t => simp [List.dropWhile_cons, hB b rfl]
  | cons a A ih =>
    have ha := hA a (by simp)
    simp only [List.cons_append, List.dropWhile_cons, ha, if_true]
    exact ih (fun x hx => hA x (by simp [hx]))

theorem head?_dropWhile_false {α : Type} (p : α → Bool) (l : List α) :
    ∀ x ∈ (l.dropWhile p).head?, p x = false := by
  induction l with
  | nil => simp
  | cons a t ih =>
    intro x hx
    by_cases h : p a = true
    · rw [List.dropWhile_cons, if_pos h] at hx
      exact ih x hx
    · rw [List.dropWhile_cons, if_neg h] at hx
      simp only [List.head?_cons, Option.mem_def, Option.some.injEq] at hx
      subst hx
      simpa using h

/-! ### Unfolding the list operations on a non-empty list -/

theorem list_insert_ne_nil (l : List memory_span_t) (mem : memory_span_t) (h : l ≠ []) :
    list_insert l mem =
      match (l.takeWhile fun s => decide (s.low < mem.low)).getLast? with
      | some p =>
        if list_check_merge p mem then
          (l.takeWhile fun s => decide (s.low < mem.low)).dropLast ++
            merge_succs ⟨p.low, max p.high mem.high⟩
              (l.dropWhile fun s => decide (s.low < mem.low))
        else
          (l.takeWhile fun s => decide (s.low < mem.low)) ++
            merge_succs mem (l.dropWhile fun s => decide (s.low < mem.low))
      | none => merge_succs mem (l.dropWhile fun s => decide (s.low < mem.low)) := by
  cases l with
  | nil => exact absurd rfl h
  | cons x xs => rfl

theorem list_remove_ne_nil (l : List memory_span_t) (mem : memory_span_t) (h : l ≠ []) :
    list_remove l mem =
      match (l.takeWhile fun s => decide (s.low < mem.low)).getLast? with
      | some p =>
        if list_check_overlap p mem then
          if decide (p.high ≤ mem.high) then
            (l.takeWhile fun s => decide (s.low < mem.low)).dropLast ++
              ⟨p.low, mem.low⟩ ::
                trim_succs mem (l.dropWhile fun s => decide (s.low < mem.low))
          else
            list_insert
              (list_insert
                ((l.takeWhile fun s => decide (s.low < mem.low)).dropLast ++
                  trim_succs mem (l.dropWhile fun s => decide (s.low < mem.low)))
                ⟨p.low, mem.low⟩)
              ⟨mem.high, p.high⟩
        else
          (l.takeWhile fun s => decide (s.low < mem.low)) ++
            trim_succs mem (l.dropWhile fun s => decide (s.low < mem.low))
      | none => trim_succs mem (l.dropWhile fun s => decide (s.low < mem.low)) := by
  cases l with
  | nil => exact absurd rfl h
  | cons x xs => rfl

theorem list_insert_split (A B : List memory_span_t) (mem : memory_span_t)
    (hA : ∀ x ∈ A, x.low < mem.low) (hB : ∀ x ∈ B.head?, mem.low ≤ x.low) :
    list_insert (A ++ B) mem =
      match A.getLast? with
      | some p =>
        if list_check_merge p mem then
          A.dropLast ++ merge_succs ⟨p.low, max p.high mem.high⟩ B
        else A ++ merge_succs mem B
      | none => merge_succs mem B := by
  have hA' : ∀ x ∈ A, (fun s : memory_span_t => decide (s.low < mem.low)) x = true := by
    intro x hx; simpa using hA x hx
  have hB' : ∀ x ∈ B.head?, (fun s : memory_span_t => decide (s.low < mem.low)) x = false := by
    intro x hx; simpa using Nat.not_lt.mpr (hB x hx)
  by_cases hAB : A ++ B = []
  · obtain ⟨hA0, hB0⟩ := List.append_eq_nil.mp hAB
    subst hA0; subst hB0
    rfl
  · rw [list_insert_ne_nil _ _ hAB,
      takeWhile_append_eq _ A B hA' hB', dropWhile_append_eq _ A B hA' hB']

theorem list_remove_split (A B : List memory_span_t) (mem : memory_span_t)
    (hA : ∀ x ∈ A, x.low < mem.low) (hB : ∀ x ∈ B.head?, mem.low ≤ x.low) :
    list_remove (A ++ B) mem =
      match A.getLast? with
      | some p =>
        if list_check_overlap p mem then
          if decide (p.high ≤ mem.high) then
            A.dropLast ++ ⟨p.low, mem.low⟩ :: trim_succs mem B
          else
            list_insert (list_insert (A.dropLast ++ trim_succs mem B) ⟨p.low, mem.low⟩)
              ⟨mem.high, p.high⟩
        else A ++ trim_succs mem B
      | none => trim_succs mem B := by
  have hA' : ∀ x ∈ A, (fun s : memory_span_t => decide (s.low < mem.low)) x = true := by
    intro x hx; simpa using hA x hx
  have hB' : ∀ x ∈ B.head?, (fun s : memory_span_t => decide (s.low < mem.low)) x = false := by
    intro x hx; simpa using Nat.not_lt.mpr (hB x hx)
  by_cases hAB : A ++ B = []
  · obtain ⟨hA0, hB0⟩ := List.append_eq_nil.mp hAB
    subst hA0; subst hB0
    rfl
  · rw [list_remove_ne_nil _ _ hAB,
      takeWhile_append_eq _ A B hA' hB', dropWhile_append_eq _ A B hA' hB']

/-! ### The merge and trim loops preserve the invariant -/

theorem merge_succs_inv (n : memory_span_t) (B : List memory_span_t)
    (hn : n.low < n.high) (hB : ListInv B) :
    ∃ m rest, merge_succs n B = m :: rest ∧ m.low = n.low ∧ n.high ≤ m.high ∧
      ListInv (m :: rest) ∧ ∀ d ∈ rest, d ∈ B := by
  induction B generalizing n with
  | nil =>
    refine ⟨n, [], rfl, rfl, le_refl _, ?_, by simp⟩
    exact ⟨List.pairwise_singleton _ _, by simpa using hn⟩
  | cons c rest0 ih =>
    obtain ⟨hP, hWF⟩ := hB
    rw [List.pairwise_cons] at hP
    obtain ⟨hcr, hP0⟩ := hP
    have hWFc : c.low < c.high := hWF c (by simp)
    by_cases hm : list_check_merge n c = true
    · have hn' : n.low < max n.high c.high := lt_of_lt_of_le hn (le_max_left _ _)
      obtain ⟨m, rest, heq, hlow, hhigh, hinv, hsub⟩ :=
        ih ⟨n.low, max n.high c.high⟩ hn' ⟨hP0, fun s hs => hWF s (by simp [hs])⟩
      refine ⟨m, rest, ?_, hlow, ?_, hinv, fun d hd => by simp [hsub d hd]⟩
      · simpa [merge_succs, hm] using heq
      · exact le_trans (le_max_left _ _) hhigh
    · rw [Bool.not_eq_true] at hm
      obtain ⟨hne, hlt⟩ := check_merge_eq_false.mp hm
      refine ⟨n, c :: rest0, by simp [merge_succs, hm], rfl, le_refl _, ?_, by simp⟩
      constructor
      · rw [List.pairwise_cons]
        refine ⟨?_, List.pairwise_cons.mpr ⟨hcr, hP0⟩⟩
        intro d hd
        rcases List.mem_cons.mp hd with h | h
        · subst h; exact hlt
        · exact lt_trans (lt_trans hlt hWFc) (hcr d h)
      · intro s hs
        rcases List.mem_cons.mp hs with h | h
        · subst h; exact hn
        · exact hWF s h

theorem trim_succs_inv (mem : memory_span_t) (B : List memory_span_t)
    (hmem : mem.low < mem.high) (hB : ListInv B) (hlow : ∀ s ∈ B, mem.low ≤ s.low) :
    ListInv (trim_succs mem B) ∧ ∀ y ∈ trim_succs mem B, mem.low < y.low := by
  induction B with
  | nil =>
    refine ⟨⟨List.Pairwise.nil, ?_⟩, ?_⟩ <;> intro s hs <;> simp [trim_succs] at hs
  | cons c rest ih =>
    obtain ⟨hP, hWF⟩ := hB
    rw [List.pairwise_cons] at hP
    obtain ⟨hcr, hP0⟩ := hP
    have hWFc : c.low < c.high := hWF c (by simp)
    have hlc : mem.low ≤ c.low := hlow c (by simp)
    by_cases h1 : list_check_overlap mem c = true
    · by_cases h2 : list_check_contained mem c = true
      · have hrest := ih ⟨hP0, fun s hs => hWF s (by simp [hs])⟩
          (fun s hs => by have := hcr s hs; omega)
        simpa [trim_succs, h1, h2] using hrest
      · have hno : ¬(mem.low ≤ c.low ∧ c.high ≤ mem.high) := by
          intro h; exact h2 (check_contained_iff.mpr h)
        have hch : mem.high < c.high := by omega
        have hgoal : trim_succs mem (c :: rest) = ⟨mem.high, c.high⟩ :: rest := by
          simp [trim_succs, h1, h2]
        rw [hgoal]
        refine ⟨⟨?_, ?_⟩, ?_⟩
        · rw [List.pairwise_cons]
          exact ⟨fun d hd => hcr d hd, hP0⟩
        · intro s hs
          rcases List.mem_cons.mp hs with h | h
          · subst h; exact hch
          · exact hWF s (by simp [h])
        · intro y hy
          rcases List.mem_cons.mp hy with h | h
          · subst h; simpa using hmem
          · have := hcr y h; omega
    · rw [Bool.not_eq_true] at h1
      obtain ⟨hne, hle⟩ := check_overlap_eq_false.mp h1
      have hgoal : trim_succs mem (c :: rest) = c :: rest := by
        simp [trim_succs, h1]
      rw [hgoal]
      refine ⟨⟨List.pairwise_cons.mpr ⟨hcr, hP0⟩, hWF⟩, ?_⟩
      intro y hy
      rcases List.mem_cons.mp hy with h | h
      · subst h; omega
      · have := hcr y h; omega

theorem all_low_ge_of_head (mem : memory_span_t) (B : List memory_span_t)
    (hB : ListInv B) (h : ∀ x ∈ B.head?, mem.low ≤ x.low) :
    ∀ s ∈ B, mem.low ≤ s.low := by
  cases B with
  | nil => simp
  | cons b rest =>
    intro s hs
    have hb : mem.low ≤ b.low := h b rfl
    rcases List.mem_cons.mp hs with h' | h'
    · subst h'; exact hb
    · obtain ⟨hP, hWF⟩ := hB
      rw [List.pairwise_cons] at hP
      have h1 : b.high < s.low := hP.1 s h'
      have h2 : b.low < b.high := hWF b (by simp)
      omega

/-! ### `list_insert` and `list_remove` preserve the invariant -/

theorem list_insert_inv (l : List memory_span_t) (mem : memory_span_t)
    (hl : ListInv l) (hmem : mem.low < mem.high) : ListInv (list_insert l mem) := by
  have hsplit := List.takeWhile_append_dropWhile
    (fun s : memory_span_t => decide (s.low < mem.low)) l
  have hAmem : ∀ x ∈ l.takeWhile (fun s : memory_span_t => decide (s.low < mem.low)),
      x.low < mem.low := by
    intro x hx; simpa using List.mem_takeWhile_imp hx
  have hBmem : ∀ x ∈ (l.dropWhile (fun s : memory_span_t => decide (s.low < mem.low))).head?,
      mem.low ≤ x.low := by
    intro x hx
    simpa using head?_dropWhile_false _ l x hx
  rw [← hsplit] at hl ⊢
  set A := l.takeWhile (fun s : memory_span_t => decide (s.low < mem.low)) with hA
  set B := l.dropWhile (fun s : memory_span_t => decide (s.low < mem.low)) with hB
  rw [list_insert_split A B mem hAmem hBmem]
  obtain ⟨hPall, hWFall⟩ := hl
  rw [List.pairwise_append] at hPall
  obtain ⟨hPA, hPB, hcross⟩ := hPall
  have hWFA : ∀ s ∈ A, s.low < s.high := fun s hs => hWFall s (by simp [hs])
  have hWFB : ∀ s ∈ B, s.low < s.high := fun s hs => hWFall s (by simp [hs])
  cases hcase : A.getLast? with
  | none =>
    have hAnil : A = [] := List.getLast?_eq_none_iff.mp hcase
    obtain ⟨m, rest, heq, hlow, hhigh, hinv, hsub⟩ :=
      merge_succs_inv mem B hmem ⟨hPB, hWFB⟩
    rw [heq]
    exact hinv
  | some p =>
    have hAne : A ≠ [] := by
      intro h; rw [h] at hcase; simp at hcase
    have hgl : A.getLast hAne = p := by
      have := List.getLast?_eq_getLast A hAne
      rw [this] at hcase
      exact Option.some.inj hcase
    have hAeq : A.dropLast ++ [p] = A := by
      rw [← hgl]; exact List.dropLast_append_getLast hAne
    have hpA : p ∈ A := by rw [← hgl]; exact List.getLast_mem hAne
    have hplow : p.low < mem.low := hAmem p hpA
    have hpWF : p.low < p.high := hWFA p hpA
    have hdropP : ∀ x ∈ A.dropLast, x.high < p.low := by
      intro x hx
      have hPA' : List.Pairwise (fun a b => a.high < b.low) (A.dropLast ++ [p]) := by
        rw [hAeq]; exact hPA
      rw [List.pairwise_append] at hPA'
      exact hPA'.2.2 x hx p (by simp)
    have hdropSub : ∀ x ∈ A.dropLast, x ∈ A := fun x hx => (List.dropLast_sublist A).subset hx
    by_cases hm : list_check_merge p mem = true
    · have hn : p.low < max p.high mem.high := lt_of_lt_of_le hpWF (le_max_left _ _)
      obtain ⟨m, rest, heq, hlow, hhigh, hinv, hsub⟩ :=
        merge_succs_inv ⟨p.low, max p.high mem.high⟩ B hn ⟨hPB, hWFB⟩
      simp only [hm, if_true]
      rw [heq]
      constructor
      · rw [List.pairwise_append]
        refine ⟨List.Pairwise.sublist (List.dropLast_sublist A) hPA, hinv.1, ?_⟩
        intro x hx y hy
        rcases List.mem_cons.mp hy with h | h
        · subst h; rw [hlow]; exact hdropP x hx
        · exact hcross x (hdropSub x hx) y (hsub y h)
      · intro s hs
        rcases List.mem_append.mp hs with h | h
        · exact hWFA s (hdropSub s h)
        · exact hinv.2 s h
    · have hmf : list_check_merge p mem = false := Bool.not_eq_true _ |>.mp hm
      obtain ⟨hne, hlt⟩ := check_merge_eq_false.mp hmf
      obtain ⟨m, rest, heq, hlow, hhigh, hinv, hsub⟩ :=
        merge_succs_inv mem B hmem ⟨hPB, hWFB⟩
      simp only [hmf, Bool.false_eq_true, if_false]
      rw [heq]
      constructor
      · rw [List.pairwise_append]
        refine ⟨hPA, hinv.1, ?_⟩
        intro x hx y hy
        have hxA : x.high < mem.low := by
          have hx' : x ∈ A.dropLast ++ [p] := by rw [hAeq]; exact hx
          rcases List.mem_append.mp hx' with h | h
          · have := hdropP x h; omega
          · have : x = p := by simpa using h
            subst this; exact hlt
        rcases List.mem_cons.mp hy with h | h
        · subst h; rw [hlow]; exact hxA
        · exact hcross x hx y (hsub y h)
      · intro s hs
        rcases List.mem_append.mp hs with h | h
        · exact hWFA s h
        · exact hinv.2 s h

theorem list_remove_inv (l : List memory_span_t) (mem : memory_span_t)
    (hl : ListInv l) (hmem : mem.low < mem.high) : ListInv (list_remove l mem) := by
  have hsplit := List.takeWhile_append_dropWhile
    (fun s : memory_span_t => decide (s.low < mem.low)) l
  have hAmem : ∀ x ∈ l.takeWhile (fun s : memory_span_t => decide (s.low < mem.low)),
      x.low < mem.low := by
    intro x hx; simpa using List.mem_takeWhile_imp hx
  have hBmem : ∀ x ∈ (l.dropWhile (fun s : memory_span_t => decide (s.low < mem.low))).head?,
      mem.low ≤ x.low := by
    intro x hx
    simpa using head?_dropWhile_false _ l x hx
  rw [← hsplit] at hl ⊢
  set A := l.takeWhile (fun s : memory_span_t => decide (s.low < mem.low)) with hA
  set B := l.dropWhile (fun s : memory_span_t => decide (s.low < mem.low)) with hB
  rw [list_remove_split A B mem hAmem hBmem]
  obtain ⟨hPall, hWFall⟩ := hl
  rw [List.pairwise_append] at hPall
  obtain ⟨hPA, hPB, hcross⟩ := hPall
  have hWFA : ∀ s ∈ A, s.low < s.high := fun s hs => hWFall s (by simp [hs])
  have hWFB : ∀ s ∈ B, s.low < s.high := fun s hs => hWFall s (by simp [hs])
  have hBlow : ∀ s ∈ B, mem.low ≤ s.low := all_low_ge_of_head mem B ⟨hPB, hWFB⟩ hBmem
  obtain ⟨hWinv, hWlow⟩ := trim_succs_inv mem B hmem ⟨hPB, hWFB⟩ hBlow
  cases hcase : A.getLast? with
  | none => exact hWinv
  | some p =>
    have hAne : A ≠ [] := by
      intro h; rw [h] at hcase; simp at hcase
    have hgl : A.getLast hAne = p := by
      have := List.getLast?_eq_getLast A hAne
      rw [this] at hcase
      exact Option.some.inj hcase
    have hAeq : A.dropLast ++ [p] = A := by
      rw [← hgl]; exact List.dropLast_append_getLast hAne
    have hpA : p ∈ A := by rw [← hgl]; exact List.getLast_mem hAne
    have hplow : p.low < mem.low := hAmem p hpA
    have hpWF : p.low < p.high := hWFA p hpA
    have hdropP : ∀ x ∈ A.dropLast, x.high < p.low := by
      intro x hx
      have hPA' : List.Pairwise (fun a b => a.high < b.low) (A.dropLast ++ [p]) := by
        rw [hAeq]; exact hPA
      rw [List.pairwise_append] at hPA'
      exact hPA'.2.2 x hx p (by simp)
    have hdropSub : ∀ x ∈ A.dropLast, x ∈ A := fun x hx => (List.dropLast_sublist A).subset hx
    by_cases hov : list_check_overlap p mem = true
    · by_cases hhi : p.high ≤ mem.high
      · have hd : decide (p.high ≤ mem.high) = true := decide_eq_true hhi
        simp only [hov, if_true, hd]
        constructor
        · rw [List.pairwise_append]
          refine ⟨List.Pairwise.sublist (List.dropLast_sublist A) hPA, ?_, ?_⟩
          · rw [List.pairwise_cons]
            exact ⟨fun y hy => hWlow y hy, hWinv.1⟩
          · intro x hx y hy
            rcases List.mem_cons.mp hy with h | h
            · subst h
              exact hdropP x hx
            · have h1 := hdropP x hx
              have h2 := hWlow y h
              omega
        · intro s hs
          rcases List.mem_append.mp hs with h | h
          · exact hWFA s (hdropSub s h)
          · rcases List.mem_cons.mp h with h' | h'
            · subst h'; exact hplow
            · exact hWinv.2 s h'
      · have hbase : ListInv (A.dropLast ++ trim_succs mem B) := by
          constructor
          · rw [List.pairwise_append]
            refine ⟨List.Pairwise.sublist (List.dropLast_sublist A) hPA, hWinv.1, ?_⟩
            intro x hx y hy
            have h1 := hdropP x hx
            have h2 := hWlow y hy
            omega
          · intro s hs
            rcases List.mem_append.mp hs with h | h
            · exact hWFA s (hdropSub s h)
            · exact hWinv.2 s h
        have hd : decide (p.high ≤ mem.high) = false := decide_eq_false hhi
        simp only [hov, if_true, hd, Bool.false_eq_true, if_false]
        exact list_insert_inv _ _
          (list_insert_inv _ _ hbase hplow) (by show mem.high < p.high; omega)
    · have hovf : list_check_overlap p mem = false := Bool.not_eq_true _ |>.mp hov
      obtain ⟨hne, hle⟩ := check_overlap_eq_false.mp hovf
      simp only [hovf, Bool.false_eq_true, if_false]
      constructor
      · rw [List.pairwise_append]
        refine ⟨hPA, hWinv.1, ?_⟩
        intro x hx y hy
        have hy' := hWlow y hy
        have hx' : x ∈ A.dropLast ++ [p] := by rw [hAeq]; exact hx
        rcases List.mem_append.mp hx' with h | h
        · have := hdropP x h; omega
        · have : x = p := by simpa using h
          subst this; omega
      · intro s hs
        rcases List.mem_append.mp hs with h | h
        · exact hWFA s h
        · exact hWinv.2 s h

/-! ### Any insert/remove sequence from the empty list keeps the invariant -/

theorem apply_op_inv (l : List memory_span_t) (op : list_op)
    (hl : ListInv l) (hop : op_valid op) : ListInv (apply_op l op) := by
  cases op with
  | insert mem => exact list_insert_inv l mem hl hop
  | remove mem => exact list_remove_inv l mem hl hop

theorem foldl_apply_op_inv (ops : List list_op) (l : List memory_span_t)
    (hl : ListInv l) (hops : ∀ op ∈ ops, op_valid op) :
    ListInv (ops.foldl apply_op l) := by
  induction ops generalizing l with
  | nil => exact hl
  | cons op rest ih =>
    exact ih (apply_op l op) (apply_op_inv l op hl (hops op (by simp)))
      (fun o ho => hops o (by simp [ho]))

/-! ### Exact shape of the successor-merge loop on a touched block -/

/-- Maximum of `h` and the `high` bounds of the spans of `B`, accumulated the
way the successor-merge loop accumulates it. -/
def foldMax (h : Nat) (B : List memory_span_t) : Nat :=
  B.foldl (fun acc b => max acc b.high) h

theorem le_foldMax (h : Nat) (B : List memory_span_t) : h ≤ foldMax h B := by
  induction B generalizing h with
  | nil => exact le_refl _
  | cons b B ih => exact le_trans (le_max_left _ b.high) (ih _)

theorem foldMax_lt (h : Nat) (B : List memory_span_t) (bound : Nat)
    (h1 : h < bound) (h2 : ∀ b ∈ B, b.high < bound) : foldMax h B < bound := by
  induction B generalizing h with
  | nil => exact h1
  | cons b B ih =>
    exact ih _ (max_lt h1 (h2 b (by simp))) (fun d hd => h2 d (by simp [hd]))

theorem merge_succs_absorb (n : memory_span_t) (B C : List memory_span_t)
    (habs : ∀ c ∈ B, c.low ≤ n.high)
    (hstop : ∀ c ∈ C.head?, ¬n.low = c.low ∧ foldMax n.high B < c.low) :
    merge_succs n (B ++ C) = ⟨n.low, foldMax n.high B⟩ :: C := by
  induction B generalizing n with
  | nil =>
    have hfold : foldMax n.high [] = n.high := rfl
    cases C with
    | nil => rfl
    | cons c C' =>
      obtain ⟨h1, h2⟩ := hstop c rfl
      rw [hfold] at h2
      have hm : list_check_merge n c = false :=
        check_merge_eq_false.mpr ⟨h1, h2⟩
      simp [merge_succs, hm, hfold]
  | cons b B' ih =>
    have hm : list_check_merge n b = true :=
      check_merge_iff.mpr (Or.inr (habs b (by simp)))
    have step : merge_succs n ((b :: B') ++ C) =
        merge_succs ⟨n.low, max n.high b.high⟩ (B' ++ C) := by
      simp [merge_succs, hm]
    rw [step, ih ⟨n.low, max n.high b.high⟩
      (fun c hc => le_trans (habs c (by simp [hc])) (le_max_left _ _))
      (fun c hc => hstop c hc)]
    rfl

/-! ### Exact shape of the removal walk, span by span -/

theorem filterMap_remove_keep_right (mem : memory_span_t) (L : List memory_span_t)
    (hmem : mem.low < mem.high)
    (h : ∀ d ∈ L, mem.high ≤ d.low ∧ d.low < d.high) :
    L.filterMap (remove_piece mem) = L := by
  induction L with
  | nil => rfl
  | cons d L' ih =>
    obtain ⟨hd1, hd2⟩ := h d (by simp)
    have h1 : ¬d.high ≤ mem.low := by omega
    have h2 : mem.high ≤ d.low := hd1
    simp [List.filterMap_cons, remove_piece, h1, h2,
      ih (fun x hx => h x (by simp [hx]))]

theorem filterMap_remove_keep_left (mem : memory_span_t) (L : List memory_span_t)
    (h : ∀ x ∈ L, x.high ≤ mem.low) :
    L.filterMap (remove_piece mem) = L := by
  induction L with
  | nil => rfl
  | cons x L' ih =>
    have h1 : x.high ≤ mem.low := h x (by simp)
    simp [List.filterMap_cons, remove_piece, h1,
      ih (fun y hy => h y (by simp [hy]))]

theorem trim_succs_eq_filterMap (mem : memory_span_t) (B : List memory_span_t)
    (hmem : mem.low < mem.high) (hB : ListInv B) (hlow : ∀ s ∈ B, mem.low ≤ s.low) :
    trim_succs mem B = B.filterMap (remove_piece mem) := by
  induction B with
  | nil => rfl
  | cons c rest ih =>
    obtain ⟨hP, hWF⟩ := hB
    rw [List.pairwise_cons] at hP
    obtain ⟨hcr, hP0⟩ := hP
    have hWFc : c.low < c.high := hWF c (by simp)
    have hlc : mem.low ≤ c.low := hlow c (by simp)
    by_cases h1 : list_check_overlap mem c = true
    · have hov := check_overlap_iff.mp h1
      by_cases h2 : list_check_contained mem c = true
      · obtain ⟨-, hch⟩ := check_contained_iff.mp h2
        have e1 : ¬c.high ≤ mem.low := by omega
        have e2 : ¬mem.high ≤ c.low := by omega
        have e3 : ¬c.low < mem.low := by omega
        have e4 : ¬mem.high < c.high := by omega
        have hpiece : remove_piece mem c = none := by
          simp [remove_piece, e1, e2, e3, e4]
        simp only [trim_succs, h1, if_true, h2, List.filterMap_cons, hpiece]
        exact ih ⟨hP0, fun s hs => hWF s (by simp [hs])⟩
          (fun s hs => by have := hcr s hs; omega)
      · have hnc : ¬(mem.low ≤ c.low ∧ c.high ≤ mem.high) := by
          intro h; exact h2 (check_contained_iff.mpr h)
        have hch : mem.high < c.high := by omega
        have e1 : ¬c.high ≤ mem.low := by omega
        have e2 : ¬mem.high ≤ c.low := by omega
        have e3 : ¬c.low < mem.low := by omega
        have hpiece : remove_piece mem c = some ⟨mem.high, c.high⟩ := by
          simp [remove_piece, e1, e2, e3, hch]
        have h2f : list_check_contained mem c = false := Bool.not_eq_true _ |>.mp h2
        simp only [trim_succs, h1, if_true, h2f, Bool.false_eq_true, if_false,
          List.filterMap_cons, hpiece]
        rw [filterMap_remove_keep_right mem rest hmem
          (fun d hd => ⟨by have := hcr d hd; omega, hWF d (by simp [hd])⟩)]
    · have h1f : list_check_overlap mem c = false := Bool.not_eq_true _ |>.mp h1
      obtain ⟨hne, hle⟩ := check_overlap_eq_false.mp h1f
      have e1 : ¬c.high ≤ mem.low := by omega
      have e2 : mem.high ≤ c.low := hle
      have hpiece : remove_piece mem c = some c := by
        simp [remove_piece, e1, e2]
      simp only [trim_succs, h1f, Bool.false_eq_true, if_false,
        List.filterMap_cons, hpiece]
      rw [filterMap_remove_keep_right mem rest hmem
        (fun d hd => ⟨by have := hcr d hd; omega, hWF d (by simp [hd])⟩)]

/-! ### `list_remove`, characterized span by span -/

theorem list_remove_eq_filterMap (l : List memory_span_t) (mem : memory_span_t)
    (hl : ListInv l) (hmem : mem.low < mem.high)
    (hni : ∀ p ∈ l, ¬(p.low < mem.low ∧ mem.high < p.high)) :
    list_remove l mem = l.filterMap (remove_piece mem) := by
  have hsplit := List.takeWhile_append_dropWhile
    (fun s : memory_span_t => decide (s.low < mem.low)) l
  have hAmem : ∀ x ∈ l.takeWhile (fun s : memory_span_t => decide (s.low < mem.low)),
      x.low < mem.low := by
    intro x hx; simpa using List.mem_takeWhile_imp hx
  have hBmem : ∀ x ∈ (l.dropWhile (fun s : memory_span_t => decide (s.low < mem.low))).head?,
      mem.low ≤ x.low := by
    intro x hx
    simpa using head?_dropWhile_false _ l x hx
  rw [← hsplit] at hl hni ⊢
  set A := l.takeWhile (fun s : memory_span_t => decide (s.low < mem.low)) with hA
  set B := l.dropWhile (fun s : memory_span_t => decide (s.low < mem.low)) with hB
  rw [list_remove_split A B mem hAmem hBmem, List.filterMap_append]
  obtain ⟨hPall, hWFall⟩ := hl
  rw [List.pairwise_append] at hPall
  obtain ⟨hPA, hPB, hcross⟩ := hPall
  have hWFA : ∀ s ∈ A, s.low < s.high := fun s hs => hWFall s (by simp [hs])
  have hWFB : ∀ s ∈ B, s.low < s.high := fun s hs => hWFall s (by simp [hs])
  have hBlow : ∀ s ∈ B, mem.low ≤ s.low := all_low_ge_of_head mem B ⟨hPB, hWFB⟩ hBmem
  have hBf : trim_succs mem B = B.filterMap (remove_piece mem) :=
    trim_succs_eq_filterMap mem B hmem ⟨hPB, hWFB⟩ hBlow
  cases hcase : A.getLast? with
  | none =>
    have hAnil : A = [] := List.getLast?_eq_none_iff.mp hcase
    rw [hAnil]
    simpa using hBf
  | some p =>
    have hAne : A ≠ [] := by
      intro h; rw [h] at hcase; simp at hcase
    have hgl : A.getLast hAne = p := by
      have := List.getLast?_eq_getLast A hAne
      rw [this] at hcase
      exact Option.some.inj hcase
    have hAeq : A.dropLast ++ [p] = A := by
      rw [← hgl]; exact List.dropLast_append_getLast hAne
    have hpA : p ∈ A := by rw [← hgl]; exact List.getLast_mem hAne
    have hplow : p.low < mem.low := hAmem p hpA
    have hpWF : p.low < p.high := hWFA p hpA
    have hdropP : ∀ x ∈ A.dropLast, x.high < p.low := by
      intro x hx
      have hPA' : List.Pairwise (fun a b => a.high < b.low) (A.dropLast ++ [p]) := by
        rw [hAeq]; exact hPA
      rw [List.pairwise_append] at hPA'
      exact hPA'.2.2 x hx p (by simp)
    have hfA0 : A.dropLast.filterMap (remove_piece mem) = A.dropLast :=
      filterMap_remove_keep_left mem _ (fun x hx => by have := hdropP x hx; omega)
    by_cases hov : list_check_overlap p mem = true
    · have hovp : p.low = mem.low ∨ mem.low < p.high := check_overlap_iff.mp hov
      have hpo : mem.low < p.high := by omega
      by_cases hhi : p.high ≤ mem.high
      · have hd : decide (p.high ≤ mem.high) = true := decide_eq_true hhi
        simp only [hov, if_true, hd]
        have hpiece : remove_piece mem p = some ⟨p.low, mem.low⟩ := by
          have e1 : ¬p.high ≤ mem.low := by omega
          have e2 : ¬mem.high ≤ p.low := by omega
          simp [remove_piece, e1, e2, hplow]
        rw [← hAeq, List.filterMap_append, hfA0, hBf]
        simp [List.filterMap_cons, hpiece]
      · exact absurd ⟨hplow, by omega⟩ (hni p (by simp [hpA]))
    · have hovf : list_check_overlap p mem = false := Bool.not_eq_true _ |>.mp hov
      obtain ⟨hne, hle⟩ := check_overlap_eq_false.mp hovf
      simp only [hovf, Bool.false_eq_true, if_false]
      have hfA : A.filterMap (remove_piece mem) = A := by
        rw [← hAeq, List.filterMap_append, hfA0]
        have hpiece : remove_piece mem p = some p := by
          simp [remove_piece, hle]
        simp [List.filterMap_cons, hpiece]
      rw [hfA, hBf]

/-- Under the invariant, a span with the removed range strictly in its
interior is the only stored span intersecting that range. -/
theorem interior_count_le_one (l : List memory_span_t) (mem p : memory_span_t)
    (hl : ListInv l) (hp : p ∈ l) (h1 : p.low < mem.low) (h2 : mem.high < p.high) :
    l.countP (fun s => decide (s.low < mem.high) && decide (mem.low < s.high)) ≤ 1 := by
  induction l with
  | nil => simp
  | cons a t ih =>
    obtain ⟨hP, hWF⟩ := hl
    rw [List.pairwise_cons] at hP
    obtain ⟨hat, hPt⟩ := hP
    rcases List.mem_cons.mp hp with hpa | hpt
    · subst hpa
      have htz : t.countP (fun s => decide (s.low < mem.high) && decide (mem.low < s.high)) = 0 := by
        rw [List.countP_eq_zero]
        intro d hd
        have := hat d hd
        simp only [Bool.and_eq_true, decide_eq_true_eq]
        omega
      rw [List.countP_cons, htz]
      split <;> omega
    · have haf : (fun s : memory_span_t =>
          decide (s.low < mem.high) && decide (mem.low < s.high)) a = false := by
        have h3 := hat p hpt
        have h4 := hWF a (by simp)
        simp only [Bool.and_eq_false_iff, decide_eq_false_iff_not]
        omega
      rw [List.countP_cons,
        show (decide (a.low < mem.high) && decide (mem.low < a.high)) = false from haf]
      simpa using ih ⟨hPt, fun s hs => hWF s (by simp [hs])⟩ hpt

/-! ### Facts about the pool free-slot scan -/

theorem scan_free_spec (used : List Bool) (j : Nat) (h : scan_free used = some j) :
    j < used.length ∧ used[j]? = some false ∧ ∀ i, i < j → used[i]? = some true := by
  induction used generalizing j with
  | nil => simp [scan_free] at h
  | cons u rest ih =>
    by_cases hu : u = true
    · subst hu
      rw [scan_free, if_pos rfl] at h
      obtain ⟨j', hj', rfl⟩ := Option.map_eq_some'.mp h
      obtain ⟨h1, h2, h3⟩ := ih j' hj'
      refine ⟨by simpa using h1, by simpa using h2, ?_⟩
      intro i hi
      cases i with
      | zero => simp
      | succ k =>
        rw [List.getElem?_cons_succ]
        exact h3 k (by omega)
    · have hu' : u = false := by simpa using hu
      subst hu'
      rw [scan_free, if_neg (by simp)] at h
      have hj : j = 0 := by simpa using h.symm
      subst hj
      exact ⟨by simp, by simp, by omega⟩

theorem scan_free_total (used : List Bool) (h : false ∈ used) :
    ∃ j, scan_free used = some j := by
  induction used with
  | nil => simp at h
  | cons u rest ih =>
    by_cases hu : u = true
    · subst hu
      have hr : false ∈ rest := by simpa using h
      obtain ⟨j, hj⟩ := ih hr
      exact ⟨j + 1, by rw [scan_free, if_pos rfl, hj]; rfl⟩
    · have hu' : u = false := by simpa using hu
      subst hu'
      exact ⟨0, by rw [scan_free, if_neg (by simp)]⟩

instance (op : list_op) : Decidable (op_valid op) := by
  cases op <;> simp only [op_valid] <;> infer_instance

/-! ### Claim theorems -/

/-- C1: Starting from a freshly initialized empty list, after any finite
sequence of `insert` and `remove` calls (each argument span satisfying
`low < high`), the stored spans are strictly ascending by `low`, pairwise
non-overlapping, pairwise non-adjacent, and every stored span satisfies
`low < high` — i.e. `ListInv` holds of the resulting state. -/
theorem C1_sequence_invariant (ops : List list_op)
    (hops : ∀ op ∈ ops, op_valid op) : ListInv (apply_ops ops) :=
  foldl_apply_op_inv ops [] ⟨List.Pairwise.nil, by simp⟩ hops

theorem C1_sequence_invariant_witness :
    (∀ op ∈ [list_op.insert ⟨4096, 8192⟩, list_op.insert ⟨12288, 16384⟩,
        list_op.insert ⟨6400, 12544⟩, list_op.remove ⟨5120, 13312⟩], op_valid op) ∧
    ListInv (apply_ops [list_op.insert ⟨4096, 8192⟩, list_op.insert ⟨12288, 16384⟩,
        list_op.insert ⟨6400, 12544⟩, list_op.remove ⟨5120, 13312⟩]) :=
  ⟨by decide, C1_sequence_invariant _ (by decide)⟩

/-- C10: Calling `list_remove` on an empty list with any span satisfying
`low < high` is a no-op that signals no error: the state stays the empty
list (`head`/`tail` stay null, `size` stays 0; the C code's `if(l->head)`
guard skips the whole body, so no node is allocated or freed and no assert
beyond argument validity fires). -/
theorem C10_remove_empty_noop (mem : memory_span_t) (hmem : mem.low < mem.high) :
    list_remove [] mem = [] := rfl

theorem C10_remove_empty_noop_witness :
    (⟨4096, 8192⟩ : memory_span_t).low < (⟨4096, 8192⟩ : memory_span_t).high ∧
    list_remove [] ⟨4096, 8192⟩ = [] :=
  ⟨by decide, C10_remove_empty_noop ⟨4096, 8192⟩ (by decide)⟩

/-- C2 is false of the code: `list_overlaps` does not test the predecessor
"only if present".  On the singleton invariant-satisfying list
`[[0x1000,0x2000)]` and the valid query span `[0x800,0xC00)`, `list_seek`
returns the head node, whose `prev` is null, and list.c:391 dereferences
`next->prev` unconditionally — the operation faults (modelled as `none`)
instead of completing. -/
theorem C2_overlaps_null_prev_fault :
    ListInv [⟨4096, 8192⟩] ∧
    (⟨2048, 3072⟩ : memory_span_t).low < (⟨2048, 3072⟩ : memory_span_t).high ∧
    list_seek [⟨4096, 8192⟩] ⟨2048, 3072⟩ = some ⟨4096, 8192⟩ ∧
    list_overlaps [⟨4096, 8192⟩] ⟨2048, 3072⟩ = none := by decide

/-- C3 is broken by the same null-predecessor fault: on the singleton
invariant-satisfying list `[[0x1000,0x2000)]` and the valid query
`[0x800,0x1800)` the spec's stored-overlap formula is true (the stored
span genuinely overlaps the query), yet `list_overlaps` faults (modelled
as `none`) instead of returning that boolean, because `list_seek` returns
the head node and list.c:391 dereferences its null `prev`. -/
theorem C3_overlaps_fault_despite_formula :
    ListInv [⟨4096, 8192⟩] ∧
    (⟨2048, 6144⟩ : memory_span_t).low < (⟨2048, 6144⟩ : memory_span_t).high ∧
    spec_overlaps [⟨4096, 8192⟩] ⟨2048, 6144⟩ = true ∧
    list_overlaps [⟨4096, 8192⟩] ⟨2048, 6144⟩ = none := by decide

/-- C8: For every list satisfying the invariant and every span, `list_seek`
returns the first node (in ascending order from the head) whose
`low ≥ mem.low`; it returns none exactly when every stored node's `low` is
below `mem.low`; and when a node with `low = mem.low` exists, that very
node is returned. -/
theorem C8_seek_first_ge (l : List memory_span_t) (mem : memory_span_t)
    (hl : ListInv l) :
    (∀ s, list_seek l mem = some s →
      s ∈ l ∧ mem.low ≤ s.low ∧ ∀ t ∈ l, mem.low ≤ t.low → s.low ≤ t.low) ∧
    (list_seek l mem = none ↔ ∀ s ∈ l, s.low < mem.low) ∧
    (∀ s ∈ l, s.low = mem.low → list_seek l mem = some s) := by
  obtain ⟨hP, hWF⟩ := hl
  refine ⟨?_, ?_, ?_⟩
  · intro s hs
    have hmemdw : s ∈ l.dropWhile fun t : memory_span_t => decide (t.low < mem.low) :=
      List.mem_of_mem_head? hs
    have hsl : s ∈ l := (List.dropWhile_sublist _).subset hmemdw
    have hge : mem.low ≤ s.low := by
      simpa using head?_dropWhile_false _ l s hs
    refine ⟨hsl, hge, ?_⟩
    intro t ht hge'
    have htdw : t ∈ l.dropWhile fun u : memory_span_t => decide (u.low < mem.low) := by
      have := List.takeWhile_append_dropWhile
        (fun u : memory_span_t => decide (u.low < mem.low)) l
      rcases List.mem_append.mp (by rw [this]; exact ht) with h | h
      · have := List.mem_takeWhile_imp h
        simp at this
        omega
      · exact h
    cases hdw : l.dropWhile fun u : memory_span_t => decide (u.low < mem.low) with
    | nil => rw [hdw] at htdw; simp at htdw
    | cons a r =>
      have ha : a = s := by
        rw [list_seek, hdw] at hs
        simpa using hs
      subst ha
      rw [hdw] at htdw
      rcases List.mem_cons.mp htdw with h | h
      · subst h; exact le_refl _
      · have hPdw : List.Pairwise (fun a b => a.high < b.low) (a :: r) := by
          rw [← hdw]
          exact List.Pairwise.sublist (List.dropWhile_sublist _) hP
        have h1 : a.high < t.low := (List.pairwise_cons.mp hPdw).1 t h
        have h2 : a.low < a.high := hWF a hsl
        omega
  · rw [list_seek, List.head?_eq_none_iff, List.dropWhile_eq_nil_iff]
    simp
  · intro s hsl hlow
    obtain ⟨L1, L2, rfl⟩ := List.append_of_mem hsl
    have hPL : List.Pairwise (fun a b => a.high < b.low) (L1 ++ s :: L2) := hP
    rw [List.pairwise_append] at hPL
    have hA : ∀ x ∈ L1, (fun u : memory_span_t => decide (u.low < mem.low)) x = true := by
      intro x hx
      have h1 : x.high < s.low := hPL.2.2 x hx s (by simp)
      have h2 : x.low < x.high := hWF x (by simp [hx])
      simp
      omega
    have hB : ∀ x ∈ (s :: L2).head?,
        (fun u : memory_span_t => decide (u.low < mem.low)) x = false := by
      intro x hx
      have hxs : s = x := by simpa using hx
      subst hxs
      simp
      omega
    rw [list_seek, dropWhile_append_eq _ L1 (s :: L2) hA hB]
    rfl

theorem C8_seek_first_ge_witness :
    ListInv [⟨4096, 8192⟩, ⟨12288, 16384⟩] ∧
    ((∀ s : memory_span_t,
      list_seek ([⟨4096, 8192⟩, ⟨12288, 16384⟩] : List memory_span_t) ⟨9000, 9500⟩ = some s →
      s ∈ ([⟨4096, 8192⟩, ⟨12288, 16384⟩] : List memory_span_t) ∧ (9000 : Nat) ≤ s.low ∧
        ∀ t ∈ ([⟨4096, 8192⟩, ⟨12288, 16384⟩] : List memory_span_t),
          (9000 : Nat) ≤ t.low → s.low ≤ t.low) ∧
    (list_seek ([⟨4096, 8192⟩, ⟨12288, 16384⟩] : List memory_span_t) ⟨9000, 9500⟩ = none ↔
      ∀ s ∈ ([⟨4096, 8192⟩, ⟨12288, 16384⟩] : List memory_span_t), s.low < (9000 : Nat)) ∧
    (∀ s ∈ ([⟨4096, 8192⟩, ⟨12288, 16384⟩] : List memory_span_t), s.low = (9000 : Nat) →
      list_seek ([⟨4096, 8192⟩, ⟨12288, 16384⟩] : List memory_span_t) ⟨9000, 9500⟩ = some s)) :=
  ⟨by decide, C8_seek_first_ge [⟨4096, 8192⟩, ⟨12288, 16384⟩] ⟨9000, 9500⟩ (by decide)⟩

/-- C9: For every pool with at least one free slot (and parallel arrays of
equal capacity) and every valid span, `node_create` scans the used flags
in index order, returns a pool handle to the first free slot `j` (every
earlier slot is used), marks exactly that slot used, stores the given span
there with null `prev`/`next` links, and leaves every other slot — flag
and node storage — unchanged. -/
theorem C9_node_create_first_free (cache : node_cache_t) (mem : memory_span_t)
    (hwf : cache.node.length = cache.node_used.length)
    (hfree : false ∈ cache.node_used)
    (hmem : mem.low < mem.high) :
    ∃ j, (node_create cache mem).1 = alloc_result.pool j ∧
      j < cache.node_used.length ∧
      cache.node_used[j]? = some false ∧
      (∀ i, i < j → cache.node_used[i]? = some true) ∧
      (node_create cache mem).2.node_used[j]? = some true ∧
      (node_create cache mem).2.node[j]? = some (node_t.mk none none mem) ∧
      (∀ i, i ≠ j → (node_create cache mem).2.node_used[i]? = cache.node_used[i]? ∧
        (node_create cache mem).2.node[i]? = cache.node[i]?) := by
  obtain ⟨j, hj⟩ := scan_free_total _ hfree
  obtain ⟨hlt, hfalse, hbefore⟩ := scan_free_spec _ j hj
  have hltn : j < cache.node.length := by rw [hwf]; exact hlt
  refine ⟨j, ?_, hlt, hfalse, hbefore, ?_, ?_, ?_⟩
  · simp [node_create, hj]
  · simp [node_create, hj, List.getElem?_set, hlt]
  · simp [node_create, hj, List.getElem?_set, hltn]
  · intro i hi
    have hji : ¬(j = i) := fun h => hi h.symm
    constructor
    · simp [node_create, hj, List.getElem?_set, hji]
    · simp [node_create, hj, List.getElem?_set, hji]

theorem C9_node_create_first_free_witness :
    ((node_cache_t.mk [node_t.mk none none ⟨0, 1⟩, node_t.mk none none ⟨0, 1⟩,
        node_t.mk none none ⟨0, 1⟩] [true, false, false]).node.length =
      (node_cache_t.mk [node_t.mk none none ⟨0, 1⟩, node_t.mk none none ⟨0, 1⟩,
        node_t.mk none none ⟨0, 1⟩] [true, false, false]).node_used.length ∧
     false ∈ (node_cache_t.mk [node_t.mk none none ⟨0, 1⟩, node_t.mk none none ⟨0, 1⟩,
        node_t.mk none none ⟨0, 1⟩] [true, false, false]).node_used ∧
     (⟨5, 9⟩ : memory_span_t).low < (⟨5, 9⟩ : memory_span_t).high) ∧
    (∃ j, (node_create (node_cache_t.mk [node_t.mk none none ⟨0, 1⟩,
        node_t.mk none none ⟨0, 1⟩, node_t.mk none none ⟨0, 1⟩]
        [true, false, false]) ⟨5, 9⟩).1 = alloc_result.pool j ∧
      j < 3 ∧
      ([true, false, false] : List Bool)[j]? = some false ∧
      (∀ i, i < j → ([true, false, false] : List Bool)[i]? = some true) ∧
      (node_create (node_cache_t.mk [node_t.mk none none ⟨0, 1⟩,
        node_t.mk none none ⟨0, 1⟩, node_t.mk none none ⟨0, 1⟩]
        [true, false, false]) ⟨5, 9⟩).2.node_used[j]? = some true ∧
      (node_create (node_cache_t.mk [node_t.mk none none ⟨0, 1⟩,
        node_t.mk none none ⟨0, 1⟩, node_t.mk none none ⟨0, 1⟩]
        [true, false, false]) ⟨5, 9⟩).2.node[j]? = some (node_t.mk none none ⟨5, 9⟩) ∧
      (∀ i, i ≠ j →
        (node_create (node_cache_t.mk [node_t.mk none none ⟨0, 1⟩,
          node_t.mk none none ⟨0, 1⟩, node_t.mk none none ⟨0, 1⟩]
          [true, false, false]) ⟨5, 9⟩).2.node_used[i]? =
            ([true, false, false] : List Bool)[i]? ∧
        (node_create (node_cache_t.mk [node_t.mk none none ⟨0, 1⟩,
          node_t.mk none none ⟨0, 1⟩, node_t.mk none none ⟨0, 1⟩]
          [true, false, false]) ⟨5, 9⟩).2.node[i]? =
            ([node_t.mk none none ⟨0, 1⟩, node_t.mk none none ⟨0, 1⟩,
              node_t.mk none none ⟨0, 1⟩] : List node_t)[i]?)) :=
  ⟨⟨by decide, by decide, by decide⟩,
    C9_node_create_first_free (node_cache_t.mk [node_t.mk none none ⟨0, 1⟩,
      node_t.mk none none ⟨0, 1⟩, node_t.mk none none ⟨0, 1⟩] [true, false, false])
      ⟨5, 9⟩ (by decide) (by decide) (by decide)⟩

/-- C6: Inserting a span that lies fully inside an existing stored span is
idempotent: the result is the very same list, so the containing span's
bounds are unchanged, every other stored span is unchanged, and the size
is unchanged. -/
theorem C6_insert_contained_idempotent (l : List memory_span_t) (mem s : memory_span_t)
    (hl : ListInv l) (hmem : mem.low < mem.high) (hs : s ∈ l)
    (h1 : s.low ≤ mem.low) (h2 : mem.high ≤ s.high) :
    list_insert l mem = l := by
  obtain ⟨L1, L2, rfl⟩ := List.append_of_mem hs
  obtain ⟨hP, hWF⟩ := hl
  have hPs := hP
  rw [List.pairwise_append] at hPs
  obtain ⟨hPL1, hPsL2, hcross⟩ := hPs
  have hsL2 : ∀ d ∈ L2, s.high < d.low := (List.pairwise_cons.mp hPsL2).1
  have hWFs : s.low < s.high := hWF s (by simp)
  have hL1s : ∀ x ∈ L1, x.high < s.low := fun x hx => hcross x hx s (by simp)
  have hWFL1 : ∀ x ∈ L1, x.low < x.high := fun x hx => hWF x (by simp [hx])
  by_cases hlt : s.low < mem.low
  · have hA : ∀ x ∈ L1 ++ [s], x.low < mem.low := by
      intro x hx
      rcases List.mem_append.mp hx with h | h
      · have h3 := hL1s x h; have h4 := hWFL1 x h; omega
      · have hxs : x = s := by simpa using h
        subst hxs; exact hlt
    have hB : ∀ x ∈ L2.head?, mem.low ≤ x.low := by
      intro x hx
      have h3 := hsL2 x (List.mem_of_mem_head? hx)
      omega
    have hshape : L1 ++ s :: L2 = (L1 ++ [s]) ++ L2 := by simp
    rw [hshape, list_insert_split (L1 ++ [s]) L2 mem hA hB, List.getLast?_concat]
    have hm : list_check_merge s mem = true := check_merge_iff.mpr (Or.inr (by omega))
    simp only [hm, if_true, List.dropLast_concat]
    have hstop : ∀ c ∈ L2.head?,
        ¬(⟨s.low, s.high⟩ : memory_span_t).low = c.low ∧
        foldMax (⟨s.low, s.high⟩ : memory_span_t).high [] < c.low := by
      intro c hc
      have h3 := hsL2 c (List.mem_of_mem_head? hc)
      exact ⟨by show ¬s.low = c.low; omega, by show s.high < c.low; omega⟩
    have habs := merge_succs_absorb ⟨s.low, s.high⟩ [] L2 (by simp) hstop
    have hmax : max s.high mem.high = s.high := max_eq_left h2
    rw [show (⟨s.low, max s.high mem.high⟩ : memory_span_t) = ⟨s.low, s.high⟩ by rw [hmax]]
    rw [show ([] : List memory_span_t) ++ L2 = L2 from rfl] at habs
    rw [habs, show (⟨(⟨s.low, s.high⟩ : memory_span_t).low,
      foldMax (⟨s.low, s.high⟩ : memory_span_t).high []⟩ : memory_span_t) = s from rfl]
    simp
  · have heq : s.low = mem.low := by omega
    have hA : ∀ x ∈ L1, x.low < mem.low := by
      intro x hx
      have h3 := hL1s x hx; have h4 := hWFL1 x hx; omega
    have hB : ∀ x ∈ (s :: L2).head?, mem.low ≤ x.low := by
      intro x hx
      have hxs : s = x := by simpa using hx
      subst hxs; omega
    rw [list_insert_split L1 (s :: L2) mem hA hB]
    have hstop : ∀ c ∈ L2.head?, ¬mem.low = c.low ∧ foldMax mem.high [s] < c.low := by
      intro c hc
      have h3 := hsL2 c (List.mem_of_mem_head? hc)
      refine ⟨by omega, ?_⟩
      show max mem.high s.high < c.low
      omega
    have habs := merge_succs_absorb mem [s] L2 (by intro c hc; simp at hc; subst hc; omega) hstop
    have hspan : (⟨mem.low, foldMax mem.high [s]⟩ : memory_span_t) = s := by
      show (⟨mem.low, max mem.high s.high⟩ : memory_span_t) = s
      rw [max_eq_right h2, ← heq]
    rw [show ([s] : List memory_span_t) ++ L2 = s :: L2 from rfl, hspan] at habs
    cases hcase : L1.getLast? with
    | none =>
      have hnil : L1 = [] := List.getLast?_eq_none_iff.mp hcase
      rw [habs, hnil]
      rfl
    | some a =>
      have hane : L1 ≠ [] := by intro h; rw [h] at hcase; simp at hcase
      have hgl : L1.getLast hane = a := by
        have := List.getLast?_eq_getLast L1 hane
        rw [this] at hcase
        exact Option.some.inj hcase
      have haL1 : a ∈ L1 := by rw [← hgl]; exact List.getLast_mem hane
      have hmf : list_check_merge a mem = false := by
        rw [check_merge_eq_false]
        have h3 := hL1s a haL1
        have h4 := hWFL1 a haL1
        omega
      simp only [hmf, Bool.false_eq_true, if_false]
      rw [habs]

theorem C6_insert_contained_idempotent_witness :
    ListInv [⟨4096, 8192⟩, ⟨12288, 16384⟩] ∧
    (⟨4608, 5120⟩ : memory_span_t).low < (⟨4608, 5120⟩ : memory_span_t).high ∧
    (⟨4096, 8192⟩ : memory_span_t) ∈ ([⟨4096, 8192⟩, ⟨12288, 16384⟩] : List memory_span_t) ∧
    (⟨4096, 8192⟩ : memory_span_t).low ≤ (⟨4608, 5120⟩ : memory_span_t).low ∧
    (⟨4608, 5120⟩ : memory_span_t).high ≤ (⟨4096, 8192⟩ : memory_span_t).high ∧
    list_insert [⟨4096, 8192⟩, ⟨12288, 16384⟩] ⟨4608, 5120⟩ =
      [⟨4096, 8192⟩, ⟨12288, 16384⟩] :=
  ⟨by decide, by decide, by decide, by decide, by decide,
    C6_insert_contained_idempotent [⟨4096, 8192⟩, ⟨12288, 16384⟩] ⟨4608, 5120⟩
      ⟨4096, 8192⟩ (by decide) (by decide) (by decide) (by decide) (by decide)⟩

/-- C5: Removing a span strictly interior to one stored span `p`
(`p.low < mem.low` and `mem.high < p.high`) replaces exactly that span by
the two spans `[p.low, mem.low)` and `[mem.high, p.high)`, leaving every
other stored span unchanged; and the union of the two results plus the
removed range equals the original span, so no bytes are gained or lost. -/
theorem C5_remove_interior_split (A C : List memory_span_t) (p mem : memory_span_t)
    (hl : ListInv (A ++ p :: C)) (hmem : mem.low < mem.high)
    (h1 : p.low < mem.low) (h2 : mem.high < p.high) :
    list_remove (A ++ p :: C) mem = A ++ ⟨p.low, mem.low⟩ :: ⟨mem.high, p.high⟩ :: C ∧
    ∀ x : Nat, ((p.low ≤ x ∧ x < mem.low) ∨ (mem.high ≤ x ∧ x < p.high) ∨
      (mem.low ≤ x ∧ x < mem.high)) ↔ (p.low ≤ x ∧ x < p.high) := by
  obtain ⟨hP, hWF⟩ := hl
  have hPs := hP
  rw [List.pairwise_append] at hPs
  obtain ⟨hPA, hPpC, hcross⟩ := hPs
  have hpC : ∀ d ∈ C, p.high < d.low := (List.pairwise_cons.mp hPpC).1
  have hWFp : p.low < p.high := hWF p (by simp)
  have hAp : ∀ x ∈ A, x.high < p.low := fun x hx => hcross x hx p (by simp)
  have hWFA : ∀ x ∈ A, x.low < x.high := fun x hx => hWF x (by simp [hx])
  refine ⟨?_, by intro x; omega⟩
  have hA' : ∀ x ∈ A ++ [p], x.low < mem.low := by
    intro x hx
    rcases List.mem_append.mp hx with h | h
    · have h3 := hAp x h; have h4 := hWFA x h; omega
    · have hxp : x = p := by simpa using h
      subst hxp; exact h1
  have hB' : ∀ x ∈ C.head?, mem.low ≤ x.low := by
    intro x hx
    have h3 := hpC x (List.mem_of_mem_head? hx)
    omega
  have hshape : A ++ p :: C = (A ++ [p]) ++ C := by simp
  rw [hshape, list_remove_split (A ++ [p]) C mem hA' hB', List.getLast?_concat]
  have hov : list_check_overlap p mem = true := check_overlap_iff.mpr (Or.inr (by omega))
  have hd : decide (p.high ≤ mem.high) = false := decide_eq_false (by omega)
  simp only [hov, if_true, hd, Bool.false_eq_true, if_false, List.dropLast_concat]
  have htrim : trim_succs mem C = C := by
    cases C with
    | nil => rfl
    | cons c C' =>
      have h3 := hpC c (by simp)
      have hov2 : list_check_overlap mem c = false :=
        check_overlap_eq_false.mpr ⟨by omega, by omega⟩
      simp [trim_succs, hov2]
  rw [htrim]
  have hins1 : list_insert (A ++ C) ⟨p.low, mem.low⟩ = A ++ ⟨p.low, mem.low⟩ :: C := by
    have hA1 : ∀ x ∈ A, x.low < (⟨p.low, mem.low⟩ : memory_span_t).low := by
      intro x hx
      have h3 := hAp x hx; have h4 := hWFA x hx
      show x.low < p.low
      omega
    have hB1 : ∀ x ∈ C.head?, (⟨p.low, mem.low⟩ : memory_span_t).low ≤ x.low := by
      intro x hx
      have h3 := hpC x (List.mem_of_mem_head? hx)
      show p.low ≤ x.low
      omega
    rw [list_insert_split A C ⟨p.low, mem.low⟩ hA1 hB1]
    have hstop1 : ∀ c ∈ C.head?,
        ¬(⟨p.low, mem.low⟩ : memory_span_t).low = c.low ∧
        foldMax (⟨p.low, mem.low⟩ : memory_span_t).high [] < c.low := by
      intro c hc
      have h3 := hpC c (List.mem_of_mem_head? hc)
      exact ⟨by show ¬p.low = c.low; omega, by show mem.low < c.low; omega⟩
    have habs1 := merge_succs_absorb ⟨p.low, mem.low⟩ [] C (by simp) hstop1
    rw [show ([] : List memory_span_t) ++ C = C from rfl] at habs1
    cases hcase : A.getLast? with
    | none =>
      have hnil : A = [] := List.getLast?_eq_none_iff.mp hcase
      rw [habs1, hnil]
      rfl
    | some a =>
      have hane : A ≠ [] := by intro h; rw [h] at hcase; simp at hcase
      have hgl : A.getLast hane = a := by
        have := List.getLast?_eq_getLast A hane
        rw [this] at hcase
        exact Option.some.inj hcase
      have haA : a ∈ A := by rw [← hgl]; exact List.getLast_mem hane
      have hmf : list_check_merge a ⟨p.low, mem.low⟩ = false := by
        rw [check_merge_eq_false]
        have h3 := hAp a haA
        have h4 := hWFA a haA
        exact ⟨by show ¬a.low = p.low; omega, by show a.high < p.low; omega⟩
      simp only [hmf, Bool.false_eq_true, if_false]
      rw [habs1]
      rfl
  rw [hins1]
  have hshape2 : A ++ ⟨p.low, mem.low⟩ :: C = (A ++ [⟨p.low, mem.low⟩]) ++ C := by simp
  have hA2 : ∀ x ∈ A ++ [(⟨p.low, mem.low⟩ : memory_span_t)],
      x.low < (⟨mem.high, p.high⟩ : memory_span_t).low := by
    intro x hx
    rcases List.mem_append.mp hx with h | h
    · have h3 := hAp x h; have h4 := hWFA x h
      show x.low < mem.high
      omega
    · have hxq : x = ⟨p.low, mem.low⟩ := by simpa using h
      subst hxq
      show p.low < mem.high
      omega
  have hB2 : ∀ x ∈ C.head?, (⟨mem.high, p.high⟩ : memory_span_t).low ≤ x.low := by
    intro x hx
    have h3 := hpC x (List.mem_of_mem_head? hx)
    show mem.high ≤ x.low
    omega
  rw [hshape2, list_insert_split (A ++ [(⟨p.low, mem.low⟩ : memory_span_t)]) C
    ⟨mem.high, p.high⟩ hA2 hB2, List.getLast?_concat]
  have hm2 : list_check_merge ⟨p.low, mem.low⟩ ⟨mem.high, p.high⟩ = false := by
    rw [check_merge_eq_false]
    exact ⟨by show ¬p.low = mem.high; omega, by show mem.low < mem.high; omega⟩
  simp only [hm2, Bool.false_eq_true, if_false]
  have hstop2 : ∀ c ∈ C.head?,
      ¬(⟨mem.high, p.high⟩ : memory_span_t).low = c.low ∧
      foldMax (⟨mem.high, p.high⟩ : memory_span_t).high [] < c.low := by
    intro c hc
    have h3 := hpC c (List.mem_of_mem_head? hc)
    exact ⟨by show ¬mem.high = c.low; omega, by show p.high < c.low; omega⟩
  have habs2 := merge_succs_absorb ⟨mem.high, p.high⟩ [] C (by simp) hstop2
  rw [show ([] : List memory_span_t) ++ C = C from rfl] at habs2
  rw [habs2]
  simp [foldMax]

theorem C5_remove_interior_split_witness :
    ListInv [⟨4096, 12288⟩] ∧
    (⟨5376, 6144⟩ : memory_span_t).low < (⟨5376, 6144⟩ : memory_span_t).high ∧
    (⟨4096, 12288⟩ : memory_span_t).low < (⟨5376, 6144⟩ : memory_span_t).low ∧
    (⟨5376, 6144⟩ : memory_span_t).high < (⟨4096, 12288⟩ : memory_span_t).high ∧
    (list_remove [⟨4096, 12288⟩] ⟨5376, 6144⟩ = [⟨4096, 5376⟩, ⟨6144, 12288⟩] ∧
      ∀ x : Nat, (((4096 : Nat) ≤ x ∧ x < 5376) ∨ ((6144 : Nat) ≤ x ∧ x < 12288) ∨
        ((5376 : Nat) ≤ x ∧ x < 6144)) ↔ ((4096 : Nat) ≤ x ∧ x < 12288)) :=
  ⟨by decide, by decide, by decide, by decide,
    C5_remove_interior_split [] [] ⟨4096, 12288⟩ ⟨5376, 6144⟩
      (by decide) (by decide) (by decide) (by decide)⟩

/-- C7: For every list satisfying the invariant and every removed span
(`low < high`) that intersects at least two stored spans, `list_remove`
acts exactly span by span (`remove_piece`): it deletes every stored span
fully contained in the removed range, trims the at most one boundary span
on each side (the predecessor straddling `mem.low` keeps `[s.low, mem.low)`,
the successor straddling `mem.high` keeps `[mem.high, s.high)`), and keeps
every stored span disjoint from the removed range unchanged. -/
theorem C7_remove_multi_span (l : List memory_span_t) (mem : memory_span_t)
    (hl : ListInv l) (hmem : mem.low < mem.high)
    (hsev : 2 ≤ l.countP (fun s => decide (s.low < mem.high) && decide (mem.low < s.high))) :
    list_remove l mem = l.filterMap (remove_piece mem) := by
  apply list_remove_eq_filterMap l mem hl hmem
  intro p hp hcon
  obtain ⟨h1, h2⟩ := hcon
  have := interior_count_le_one l mem p hl hp h1 h2
  omega

theorem C7_remove_multi_span_witness :
    ListInv [⟨10, 20⟩, ⟨30, 40⟩, ⟨50, 60⟩] ∧
    (⟨15, 55⟩ : memory_span_t).low < (⟨15, 55⟩ : memory_span_t).high ∧
    2 ≤ ([⟨10, 20⟩, ⟨30, 40⟩, ⟨50, 60⟩] : List memory_span_t).countP
      (fun s => decide (s.low < (55 : Nat)) && decide ((15 : Nat) < s.high)) ∧
    list_remove [⟨10, 20⟩, ⟨30, 40⟩, ⟨50, 60⟩] ⟨15, 55⟩ =
      ([⟨10, 20⟩, ⟨30, 40⟩, ⟨50, 60⟩] : List memory_span_t).filterMap
        (remove_piece ⟨15, 55⟩) :=
  ⟨by decide, by decide, by decide,
    C7_remove_multi_span [⟨10, 20⟩, ⟨30, 40⟩, ⟨50, 60⟩] ⟨15, 55⟩
      (by decide) (by decide) (by decide)⟩

/-- Folding `min` of the `low` bounds into an accumulator that is already a
lower bound leaves the accumulator unchanged. -/
theorem foldl_min_low (a : Nat) (B : List memory_span_t) (h : ∀ d ∈ B, a ≤ d.low) :
    B.foldl (fun acc s => min acc s.low) a = a := by
  induction B with
  | nil => rfl
  | cons d B' ih =>
    rw [List.foldl_cons]
    rw [show min a d.low = a from min_eq_left (h d (by simp))]
    exact ih (fun x hx => h x (by simp [hx]))

/-- C4 is false as stated: insertion replaces the `k` touched spans and the
new span by one span, which reduces the stored-span count by `k - 1`, not
by `k`.  Concretely, on the invariant-satisfying list `[[4096,8192)]` the
span `[8192,12288)` touches exactly `k = 1` stored span, the insert yields
the single merged span `[4096,12288)`, and the size stays `1` instead of
dropping to `1 - 1 = 0`. -/
theorem C4_size_drop_counterexample :
    ListInv [⟨4096, 8192⟩] ∧
    (⟨8192, 12288⟩ : memory_span_t).low < (⟨8192, 12288⟩ : memory_span_t).high ∧
    ([⟨4096, 8192⟩] : List memory_span_t).countP (fun s => touches s ⟨8192, 12288⟩) = 1 ∧
    list_insert [⟨4096, 8192⟩] ⟨8192, 12288⟩ = [⟨4096, 12288⟩] ∧
    ¬(list_insert [⟨4096, 8192⟩] ⟨8192, 12288⟩).length =
      ([⟨4096, 8192⟩] : List memory_span_t).length - 1 := by
  decide

/-- C4 (amended): for every list satisfying the invariant, decomposed as
`A ++ B ++ C` where the inserted span (with `low < high`) touches or
overlaps exactly the `k = B.length ≥ 1` spans of the contiguous block `B`
(spans of `A` end strictly below `mem.low`, spans of `C` begin strictly
above `mem.high`), the insert replaces those `k` spans and the inserted
span by exactly one stored span whose `low` is the minimum of all their
lows and whose `high` is the maximum of all their highs, leaving `A` and
`C` unchanged; the span count drops by `k - 1` relative to its value
before the insert (equivalently, by `k` relative to the transient count
right after the new node is spliced in). -/
theorem C4_insert_touch_block (A B C : List memory_span_t) (mem : memory_span_t)
    (hInv : ListInv (A ++ B ++ C)) (hmem : mem.low < mem.high)
    (hA : ∀ s ∈ A, s.high < mem.low)
    (hB : ∀ s ∈ B, touches s mem = true)
    (hC : ∀ s ∈ C, mem.high < s.low)
    (hk : B ≠ []) :
    list_insert (A ++ B ++ C) mem =
      A ++ (⟨(B.map fun s => s.low).foldl min mem.low,
             (B.map fun s => s.high).foldl max mem.high⟩ : memory_span_t) :: C ∧
    (A ++ B ++ C).countP (fun s => touches s mem) = B.length ∧
    (list_insert (A ++ B ++ C) mem).length + B.length = (A ++ B ++ C).length + 1 := by
  obtain ⟨hP, hWF⟩ := hInv
  have hP1 := hP
  rw [List.pairwise_append] at hP1
  obtain ⟨hPAB, hPC, hcross1⟩ := hP1
  have hP2 := hPAB
  rw [List.pairwise_append] at hP2
  obtain ⟨hPA, hPB, hcross2⟩ := hP2
  have hWFA : ∀ s ∈ A, s.low < s.high := fun s hs => hWF s (by simp [hs])
  have hWFB : ∀ s ∈ B, s.low < s.high := fun s hs => hWF s (by simp [hs])
  have hWFC : ∀ s ∈ C, s.low < s.high := fun s hs => hWF s (by simp [hs])
  have hBt : ∀ s ∈ B, s.low ≤ mem.high ∧ mem.low ≤ s.high := by
    intro s hs
    have := hB s hs
    simpa [touches] using this
  have hcount : (A ++ B ++ C).countP (fun s => touches s mem) = B.length := by
    rw [List.countP_append, List.countP_append]
    have hA0 : A.countP (fun s => touches s mem) = 0 := by
      rw [List.countP_eq_zero]
      intro a ha
      have h3 := hA a ha
      simp [touches]
      omega
    have hC0 : C.countP (fun s => touches s mem) = 0 := by
      rw [List.countP_eq_zero]
      intro c hc
      have h3 := hC c hc
      simp [touches]
      omega
    have hBl : B.countP (fun s => touches s mem) = B.length :=
      List.countP_eq_length.mpr (fun s hs => hB s hs)
    rw [hA0, hC0, hBl]
    omega
  obtain ⟨b, B', rfl⟩ := List.exists_cons_of_ne_nil hk
  have hbB' : ∀ d ∈ B', b.high < d.low := (List.pairwise_cons.mp hPB).1
  have hcrossBC : ∀ x ∈ b :: B', ∀ c ∈ C, x.high < c.low :=
    fun x hx c hc => hcross1 x (by simp [hx]) c hc
  have hWFb : b.low < b.high := hWFB b (by simp)
  by_cases hblow : b.low < mem.low
  · have hB'ge : ∀ d ∈ B', mem.low ≤ d.low := by
      intro d hd
      have h3 := hbB' d hd
      have h4 := (hBt b (by simp)).2
      omega
    have hAstar : ∀ x ∈ A ++ [b], x.low < mem.low := by
      intro x hx
      rcases List.mem_append.mp hx with h | h
      · have h3 := hA x h; have h4 := hWFA x h; omega
      · have hxb : x = b := by simpa using h
        subst hxb; exact hblow
    have hBstar : ∀ x ∈ (B' ++ C).head?, mem.low ≤ x.low := by
      intro x hx
      rcases List.mem_append.mp (List.mem_of_mem_head? hx) with h | h
      · exact hB'ge x h
      · have h3 := hC x h; omega
    have hmain := list_insert_split (A ++ [b]) (B' ++ C) mem hAstar hBstar
    rw [List.getLast?_concat] at hmain
    have hm : list_check_merge b mem = true :=
      check_merge_iff.mpr (Or.inr (hBt b (by simp)).2)
    simp only [hm, if_true, List.dropLast_concat] at hmain
    have habs := merge_succs_absorb ⟨b.low, max b.high mem.high⟩ B' C
      (fun d hd => by
        have h3 := (hBt d (by simp [hd])).1
        show d.low ≤ max b.high mem.high
        exact le_trans h3 (le_max_right _ _))
      (fun c hc => by
        have hcC := List.mem_of_mem_head? hc
        have h3 := hC c hcC
        refine ⟨by show ¬b.low = c.low; omega, ?_⟩
        show foldMax (max b.high mem.high) B' < c.low
        exact foldMax_lt _ _ _
          (max_lt (hcrossBC b (by simp) c hcC) (by omega))
          (fun d hd => hcrossBC d (by simp [hd]) c hcC))
    rw [habs] at hmain
    have hproj : (⟨(⟨b.low, max b.high mem.high⟩ : memory_span_t).low,
        foldMax (⟨b.low, max b.high mem.high⟩ : memory_span_t).high B'⟩ : memory_span_t) =
        ⟨b.low, foldMax (max b.high mem.high) B'⟩ := rfl
    rw [hproj] at hmain
    have hshape : (A ++ b :: B') ++ C = (A ++ [b]) ++ (B' ++ C) := by simp
    have hlow_eq : ((b :: B').map fun s => s.low).foldl min mem.low = b.low := by
      simp only [List.foldl_map, List.foldl_cons]
      rw [show min mem.low b.low = b.low from min_eq_right (le_of_lt hblow)]
      exact foldl_min_low b.low B' (fun d hd => by have := hbB' d hd; omega)
    have hhigh_eq : ((b :: B').map fun s => s.high).foldl max mem.high =
        foldMax (max b.high mem.high) B' := by
      simp only [List.foldl_map, List.foldl_cons]
      rw [Nat.max_comm mem.high b.high]
      rfl
    have hres : list_insert ((A ++ b :: B') ++ C) mem =
        A ++ (⟨((b :: B').map fun s => s.low).foldl min mem.low,
               ((b :: B').map fun s => s.high).foldl max mem.high⟩ : memory_span_t) :: C := by
      rw [hshape, hmain, hlow_eq, hhigh_eq]
    refine ⟨hres, hcount, ?_⟩
    rw [hres]
    simp only [List.length_append, List.length_cons]
    omega
  · have hBge : ∀ d ∈ b :: B', mem.low ≤ d.low := by
      intro d hd
      rcases List.mem_cons.mp hd with h | h
      · subst h; omega
      · have h3 := hbB' d h; omega
    have hAstar : ∀ x ∈ A, x.low < mem.low := by
      intro x hx
      have h3 := hA x hx; have h4 := hWFA x hx; omega
    have hBstar : ∀ x ∈ (b :: (B' ++ C)).head?, mem.low ≤ x.low := by
      intro x hx
      have hxb : b = x := by simpa using hx
      subst hxb
      exact hBge b (by simp)
    have habs := merge_succs_absorb mem (b :: B') C
      (fun d hd => (hBt d hd).1)
      (fun c hc => by
        have hcC := List.mem_of_mem_head? hc
        have h3 := hC c hcC
        refine ⟨by omega, ?_⟩
        show foldMax mem.high (b :: B') < c.low
        exact foldMax_lt _ _ _ (by omega)
          (fun d hd => hcrossBC d hd c hcC))
    have hlow_eq : ((b :: B').map fun s => s.low).foldl min mem.low = mem.low := by
      simp only [List.foldl_map]
      exact foldl_min_low mem.low (b :: B') hBge
    have hhigh_eq : ((b :: B').map fun s => s.high).foldl max mem.high =
        foldMax mem.high (b :: B') := by
      simp only [List.foldl_map]
      rfl
    have hres : list_insert ((A ++ b :: B') ++ C) mem =
        A ++ (⟨((b :: B').map fun s => s.low).foldl min mem.low,
               ((b :: B').map fun s => s.high).foldl max mem.high⟩ : memory_span_t) :: C := by
      have hshape : (A ++ b :: B') ++ C = A ++ (b :: (B' ++ C)) := by simp
      rw [hshape, list_insert_split A (b :: (B' ++ C)) mem hAstar hBstar]
      cases hcase : A.getLast? with
      | none =>
        have hnil : A = [] := List.getLast?_eq_none_iff.mp hcase
        rw [show (b :: (B' ++ C)) = (b :: B') ++ C from rfl, habs, hnil, hlow_eq, hhigh_eq]
        rfl
      | some a =>
        have hane : A ≠ [] := by intro h; rw [h] at hcase; simp at hcase
        have hgl : A.getLast hane = a := by
          have := List.getLast?_eq_getLast A hane
          rw [this] at hcase
          exact Option.some.inj hcase
        have haA : a ∈ A := by rw [← hgl]; exact List.getLast_mem hane
        have hmf : list_check_merge a mem = false := by
          rw [check_merge_eq_false]
          have h3 := hA a haA
          have h4 := hWFA a haA
          omega
        simp only [hmf, Bool.false_eq_true, if_false]
        rw [show (b :: (B' ++ C)) = (b :: B') ++ C from rfl, habs, hlow_eq, hhigh_eq]
    refine ⟨hres, hcount, ?_⟩
    rw [hres]
    simp only [List.length_append, List.length_cons]
    omega

theorem C4_insert_touch_block_witness :
    (ListInv (([⟨1, 2⟩] : List memory_span_t) ++ ([⟨4, 8⟩, ⟨10, 11⟩] : List memory_span_t) ++ ([⟨20, 30⟩] : List memory_span_t)) ∧
     (⟨8, 12⟩ : memory_span_t).low < (⟨8, 12⟩ : memory_span_t).high ∧
     (∀ s ∈ ([⟨1, 2⟩] : List memory_span_t), s.high < (8 : Nat)) ∧
     (∀ s ∈ ([⟨4, 8⟩, ⟨10, 11⟩] : List memory_span_t), touches s ⟨8, 12⟩ = true) ∧
     (∀ s ∈ ([⟨20, 30⟩] : List memory_span_t), (12 : Nat) < s.low) ∧
     ([⟨4, 8⟩, ⟨10, 11⟩] : List memory_span_t) ≠ []) ∧
    (list_insert (([⟨1, 2⟩] : List memory_span_t) ++ ([⟨4, 8⟩, ⟨10, 11⟩] : List memory_span_t) ++ ([⟨20, 30⟩] : List memory_span_t)) ⟨8, 12⟩ =
      ([⟨1, 2⟩] : List memory_span_t) ++ (⟨(([⟨4, 8⟩, ⟨10, 11⟩] : List memory_span_t).map fun s => s.low).foldl min 8,
        (([⟨4, 8⟩, ⟨10, 11⟩] : List memory_span_t).map fun s => s.high).foldl max 12⟩ :
          memory_span_t) :: ([⟨20, 30⟩] : List memory_span_t) ∧
     (([⟨1, 2⟩] : List memory_span_t) ++ ([⟨4, 8⟩, ⟨10, 11⟩] : List memory_span_t) ++ ([⟨20, 30⟩] : List memory_span_t)).countP
        (fun s => touches s ⟨8, 12⟩) = ([⟨4, 8⟩, ⟨10, 11⟩] : List memory_span_t).length ∧
     (list_insert (([⟨1, 2⟩] : List memory_span_t) ++ ([⟨4, 8⟩, ⟨10, 11⟩] : List memory_span_t) ++ ([⟨20, 30⟩] : List memory_span_t)) ⟨8, 12⟩).length +
        ([⟨4, 8⟩, ⟨10, 11⟩] : List memory_span_t).length =
       (([⟨1, 2⟩] : List memory_span_t) ++ ([⟨4, 8⟩, ⟨10, 11⟩] : List memory_span_t) ++ ([⟨20, 30⟩] : List memory_span_t)).length + 1) :=
  ⟨⟨by decide, by decide, by decide, by decide, by decide, by decide⟩,
    C4_insert_touch_block [⟨1, 2⟩] [⟨4, 8⟩, ⟨10, 11⟩] [⟨20, 30⟩] ⟨8, 12⟩
      (by decide) (by decide) (by decide) (by decide) (by decide) (by decide)⟩
